import Mathlib

/-!
Verification of the per-cell compositing engine (LayerStore variants,
UndoTracker, ReplayTracker) against its natural-language specification.

The Python sources under `src/` are shallowly embedded below:
`layer_store.py` (SetLayerStore, AdditiveLayerStore, SequenceLayerStore),
`undo.py` (UndoTracker) and `replay.py` (ReplayTracker).

The fixed-capacity container library (`data_structures/`: ArrayStack,
CircularQueue, ArraySortedList, ListItem) and the layer registry
(`layer_util.py`, `layers.py`) are not part of `src/`; where their behaviour
matters they are modelled from the spec, as documented on each definition.
-/

/-- A colour is a triple of integer channels, as in the Python code. -/
abbrev Color := Nat × Nat × Nat

/-- Modelled from the spec: a Layer is an immutable value with a unique
numeric `index`, a unique `name` and an `apply (color, timestamp, x, y)`
transform (`layer_util.Layer`, which is not under `src/`). -/
structure Layer where
  index : Nat
  name : String
  apply : Color → Nat → Nat → Nat → Color

/-- Lexicographic strict comparison of character lists by code point,
mirroring Python string comparison (used for layer names). -/
def lexLtB : List Char → List Char → Bool
  | [], [] => false
  | [], _ :: _ => true
  | _ :: _, [] => false
  | a :: as, b :: bs =>
    if a.toNat < b.toNat then true
    else if b.toNat < a.toNat then false
    else lexLtB as bs

/-- Strict name order on layers: Python `layer.name < layer.name`. -/
def nameLt (a b : Layer) : Prop := lexLtB a.name.data b.name.data = true

instance : DecidableRel nameLt := fun a b =>
  inferInstanceAs (Decidable (_ = true))

/-- Non-strict name order on layers (the order the sorted list maintains). -/
def nameLe (a b : Layer) : Prop := lexLtB b.name.data a.name.data = false

instance : DecidableRel nameLe := fun a b =>
  inferInstanceAs (Decidable (_ = false))

/-- Two registry slots hold layers with distinct names (vacuous when a slot
is empty).  The spec's data model makes layer names unique. -/
def optNameNe : Option Layer → Option Layer → Prop
  | some a, some b => lexLtB a.name.data b.name.data = true ∨
      lexLtB b.name.data a.name.data = true
  | _, _ => True

instance : DecidableRel optNameNe := fun o₁ o₂ =>
  match o₁, o₂ with
  | some a, some b => inferInstanceAs (Decidable (_ ∨ _))
  | some _, none => inferInstanceAs (Decidable True)
  | none, _ => inferInstanceAs (Decidable True)

/-- Two registry slots hold layers with distinct indices (vacuous when a
slot is empty).  The spec's data model makes layer indices unique. -/
def optIdxNe : Option Layer → Option Layer → Prop
  | some a, some b => a.index ≠ b.index
  | _, _ => True

instance : DecidableRel optIdxNe := fun o₁ o₂ =>
  match o₁, o₂ with
  | some a, some b => inferInstanceAs (Decidable (a.index ≠ b.index))
  | some _, none => inferInstanceAs (Decidable True)
  | none, _ => inferInstanceAs (Decidable True)

/-- Modelled from the spec: `get_layers()` returns an ordered sequence of
Layer-or-empty-slot; a registry is that sequence. -/
abbrev Registry := List (Option Layer)

/-- The `for layer_item in get_layers(): if layer_item.index is key` loops
in `layer_store.py` keep the last matching registry layer; this returns
that last match. -/
def lookupLayer : Registry → Nat → Option Layer
  | [], _ => none
  | o :: rest, k =>
    match lookupLayer rest k with
    | some l => some l
    | none =>
      match o with
      | some l => if l.index = k then some l else none
      | none => none

/-- Entry of the SequenceLayerStore's ArraySortedList: `ListItem(value, key)`
with a boolean "applying" value, keyed by the layer's registry index. -/
structure SItem where
  value : Bool
  key : Nat
deriving DecidableEq, Repr

/-- Key order of the sorted list underlying SequenceLayerStore. -/
def sitemLE (a b : SItem) : Prop := a.key ≤ b.key

instance : DecidableRel sitemLE := fun a b => Nat.decLe a.key b.key

/-- Modelled from the spec: `ArraySortedList.remove` deletes the first
element equal to the item (ListItem equality compares value and key). -/
def removeItem (a : SItem) : List SItem → List SItem
  | [] => []
  | x :: xs => if x = a then xs else x :: removeItem a xs

/-- SequenceLayerStore's internal state: the contents of `self.layerArr`,
an ArraySortedList of capacity `len(get_layers())` ordered by key.
Insertion is modelled with `List.orderedInsert`. -/
abbrev SeqState := List SItem

/-- `ArraySortedList.is_full`: the list has reached its capacity, which is
`len(get_layers())` (modelled from the spec: "capacity bound = number of
distinct layer types in the registry"). -/
def seqIsFull (R : Registry) (L : SeqState) : Bool := R.length ≤ L.length

/-- `SequenceLayerStore.add` (layer_store.py lines 244-263), translated
branch for branch:
full check, then "True item absent" branch, then "False item present"
branch, else no-op. -/
def seqAdd (R : Registry) (l : Layer) (L : SeqState) : Bool × SeqState :=
  if seqIsFull R L then (false, L)
  else if ¬ (SItem.mk true l.index ∈ L) then
    (true, List.orderedInsert sitemLE (SItem.mk true l.index) L)
  else if SItem.mk false l.index ∈ L then
    (true, List.orderedInsert sitemLE (SItem.mk true l.index)
      (removeItem (SItem.mk false l.index) L))
  else (false, L)

/-- `SequenceLayerStore.erase` (layer_store.py lines 284-300): replace the
type's applying item with a not-applying item. -/
def seqErase (l : Layer) (L : SeqState) : Bool × SeqState :=
  if L.isEmpty then (false, L)
  else if SItem.mk true l.index ∈ L then
    (true, List.orderedInsert sitemLE (SItem.mk false l.index)
      (removeItem (SItem.mk true l.index) L))
  else (false, L)

/-- Inner loop of `SequenceLayerStore.get_color`: apply every registry
layer whose index matches the key (the Python loop applies each match). -/
def applyMatches (R : Registry) (k : Nat) (c : Color) (t x y : Nat) : Color :=
  R.foldl (fun acc o =>
    match o with
    | some l => if l.index = k then l.apply acc t x y else acc
    | none => acc) c

/-- `SequenceLayerStore.get_color` (layer_store.py lines 265-282). -/
def seqGetColor (R : Registry) (L : SeqState) (start : Color)
    (t x y : Nat) : Color :=
  if L.isEmpty then start
  else L.foldl (fun c it =>
    if it.value then applyMatches R it.key c t x y else c) start

/-- Body of the first loop of `SequenceLayerStore.special`: collect each
applying layer (resolved through the registry) into the
lexicographically-sorted `lexiArr`. -/
def buildLexi (R : Registry) (L : SeqState) : List Layer :=
  L.foldl (fun acc it =>
    if it.value then
      match lookupLayer R it.key with
      | some l => List.orderedInsert nameLe l acc
      | none => acc
    else acc) []

/-- `SequenceLayerStore.special` (layer_store.py lines 302-336): build
`lexiArr`, pick `del_index` (lower middle for even counts, exact middle for
odd), erase that layer. -/
def seqSpecial (R : Registry) (L : SeqState) : SeqState :=
  if L.isEmpty then L
  else if (buildLexi R L).isEmpty then L
  else
    match (buildLexi R L).get?
      (if 1 < (buildLexi R L).length then
        if (buildLexi R L).length % 2 = 0 then (buildLexi R L).length / 2 - 1
        else (buildLexi R L).length / 2
      else 0) with
    | some dl => (seqErase dl L).2
    | none => L

/-- The layers whose status is "applying", resolved through the registry,
in the order their items occur in the store's list. -/
def applyingLayers (R : Registry) (L : SeqState) : List Layer :=
  (L.filter (fun it => it.value)).filterMap (fun it => lookupLayer R it.key)

/-- A layer type is currently applying when a `(True, key)` item is held. -/
def isApplying (k : Nat) (L : SeqState) : Prop := SItem.mk true k ∈ L

instance (k : Nat) (L : SeqState) : Decidable (isApplying k L) :=
  inferInstanceAs (Decidable (_ ∈ _))

/-- The claim's median position: `(count/2) - 1` for even counts, the exact
middle `count / 2` for odd counts (0-indexed). -/
def medianPos (n : Nat) : Nat := if n % 2 = 0 then n / 2 - 1 else n / 2

/-- One public mutating operation of a SequenceLayerStore. -/
inductive SeqOp where
  | addO : Layer → SeqOp
  | eraseO : Layer → SeqOp
  | specialO : SeqOp

/-- Run one operation against the store state. -/
def seqStep (R : Registry) (L : SeqState) : SeqOp → SeqState
  | .addO l => (seqAdd R l L).2
  | .eraseO l => (seqErase l L).2
  | .specialO => seqSpecial R L

/-- Run a sequence of operations against the store state. -/
def runSeq (R : Registry) (L : SeqState) (ops : List SeqOp) : SeqState :=
  ops.foldl (seqStep R) L

/-- Fold a fresh SequenceLayerStore over a list of `add` calls. -/
def stateOfAdds (R : Registry) (adds : List Layer) : SeqState :=
  adds.foldl (fun L l => (seqAdd R l L).2) []

/-- Modelled from the spec: a fixed-capacity queue refuses further
insertion once full as a silent no-op (spec sections 5, 7 and 9); the
backing `CircularQueue` is not under `src/`.  Elements are listed front
(oldest) first. -/
def queueAppend (cap : Nat) (q : List α) (a : α) : List α :=
  if cap ≤ q.length then q else q ++ [a]

/-- Modelled from the spec: a fixed-capacity stack refuses further
insertion once full as a silent no-op (spec sections 5, 7 and 9); the
backing `ArrayStack` is not under `src/`.  Elements are listed top first. -/
def stackPush (cap : Nat) (a : α) (st : List α) : List α :=
  if cap ≤ st.length then st else a :: st

/-- AdditiveLayerStore's state: the two `CircularQueue(2000)` instances of
the constructor, each listed oldest first. -/
structure AddStore where
  main : List Layer
  temp : List Layer

/-- `AdditiveLayerStore.add` (layer_store.py lines 153-164): refuse when
the queue is full, else append last. -/
def addAdd (l : Layer) (s : AddStore) : Bool × AddStore :=
  if s.main.length = 2000 then (false, s)
  else (true, { s with main := queueAppend 2000 s.main l })

/-- `AdditiveLayerStore.erase` (layer_store.py lines 187-198): remove the
oldest layer, ignoring the argument. -/
def addErase (s : AddStore) : Bool × AddStore :=
  match s.main with
  | [] => (false, s)
  | _ :: rest => (true, { s with main := rest })

/-- First loop of `AdditiveLayerStore.get_color`: serve every layer from
the main queue, append it to the temp queue and apply it to the running
colour. -/
def addGetColorLoop : List Layer → List Layer → Color → Nat → Nat → Nat →
    List Layer × Color
  | [], temp, c, _, _, _ => (temp, c)
  | l :: ls, temp, c, t, x, y =>
    addGetColorLoop ls (queueAppend 2000 temp l) (l.apply c t x y) t x y

/-- Second loop of `AdditiveLayerStore.get_color`: serve the temp queue
back into the (now empty) main queue. -/
def addRefillLoop : List Layer → List Layer → List Layer
  | [], main => main
  | l :: ls, main => addRefillLoop ls (queueAppend 2000 main l)

/-- `AdditiveLayerStore.get_color` (layer_store.py lines 166-185). -/
def addGetColor (s : AddStore) (start : Color) (t x y : Nat) :
    Color × AddStore :=
  if s.main.isEmpty then (start, s)
  else
    ((addGetColorLoop s.main s.temp start t x y).2,
      { main := addRefillLoop (addGetColorLoop s.main s.temp start t x y).1 [],
        temp := [] })

/-- Stack-loading loop of `AdditiveLayerStore.special`: serve the queue
onto an `ArrayStack` sized to the queue's length (so pushes cannot
overflow). -/
def specialLoad : List Layer → List Layer → List Layer
  | [], st => st
  | l :: ls, st => specialLoad ls (l :: st)

/-- Stack-unloading loop of `AdditiveLayerStore.special`: pop the stack
back into the (now empty) queue. -/
def specialUnload : List Layer → List Layer → List Layer
  | [], q => q
  | l :: st, q => specialUnload st (queueAppend 2000 q l)

/-- `AdditiveLayerStore.special` (layer_store.py lines 200-218). -/
def addSpecial (s : AddStore) : AddStore :=
  if s.main.isEmpty then s
  else { s with main := specialUnload (specialLoad s.main []) [] }

/-- SetLayerStore's state: an `ArrayStack(1)` of layers plus the
`is_special` toggle. -/
structure SetStore where
  held : List Layer
  special : Bool

/-- `SetLayerStore.add` (layer_store.py lines 70-84).  Layer equality is by
index, per the spec's data model ("equality is by index (or by identity) —
treated as equivalent"). -/
def setAdd (l : Layer) (s : SetStore) : Bool × SetStore :=
  match s.held with
  | [top] =>
    if top.index = l.index then (false, s)
    else (true, { s with held := [l] })
  | other => (true, { s with held := stackPush 1 l other })

/-- `SetLayerStore.erase` (layer_store.py lines 107-117): clear whatever is
held, ignoring the argument. -/
def setErase (_l : Layer) (s : SetStore) : Bool × SetStore :=
  match s.held with
  | [_] => (true, { s with held := [] })
  | _ => (false, s)

/-- `SetLayerStore.get_color` (layer_store.py lines 86-105); `inv` is the
registry's fixed invert transform (from `layers.py`, not under `src/`,
modelled from the spec as an arbitrary colour transform). -/
def setGetColor (inv : Color → Nat → Nat → Nat → Color) (s : SetStore)
    (start : Color) (t x y : Nat) : Color :=
  match s.held with
  | [top] =>
    if s.special then inv (top.apply start t x y) t x y
    else top.apply start t x y
  | _ =>
    if s.special then inv start t x y else start

/-- `SetLayerStore.special` (layer_store.py lines 119-129): toggle the
`is_special` boolean. -/
def setSpecial (s : SetStore) : SetStore :=
  { s with special := !s.special }

/-- One public mutating operation of a SetLayerStore. -/
inductive SetOp where
  | addO : Layer → SetOp
  | eraseO : Layer → SetOp
  | specialO : SetOp

/-- Run one operation against a SetLayerStore. -/
def setStep (s : SetStore) : SetOp → SetStore
  | .addO l => (setAdd l s).2
  | .eraseO l => (setErase l s).2
  | .specialO => setSpecial s

/-- Run a sequence of operations against a fresh SetLayerStore. -/
def runSet (ops : List SetOp) : SetStore :=
  ops.foldl setStep { held := [], special := false }

/-- A `PaintAction` consumed opaquely by the trackers: two effects over an
abstract grid type (spec section 3; `action.py` is not under `src/`). -/
structure PaintAction (γ : Type) where
  undoApply : γ → γ
  redoApply : γ → γ

/-- UndoTracker's state: the two `ArrayStack(10000)` instances, top
first. -/
structure UndoTracker (γ : Type) where
  undoArr : List (PaintAction γ)
  redoArr : List (PaintAction γ)

/-- `UndoTracker.add_action` (undo.py lines 12-22): push unless the undo
stack is full. -/
def UndoTracker.addAction (a : PaintAction γ) (u : UndoTracker γ) :
    UndoTracker γ :=
  if u.undoArr.length = 10000 then u
  else { u with undoArr := stackPush 10000 a u.undoArr }

/-- `UndoTracker.undo` (undo.py lines 24-38): pop, push onto the redo
stack, apply the undo effect to the grid. -/
def UndoTracker.undo (u : UndoTracker γ) (g : γ) :
    Option (PaintAction γ) × UndoTracker γ × γ :=
  match u.undoArr with
  | [] => (none, u, g)
  | a :: rest =>
    (some a, { undoArr := rest, redoArr := stackPush 10000 a u.redoArr },
      a.undoApply g)

/-- `UndoTracker.redo` (undo.py lines 40-54): symmetric to `undo`. -/
def UndoTracker.redo (u : UndoTracker γ) (g : γ) :
    Option (PaintAction γ) × UndoTracker γ × γ :=
  match u.redoArr with
  | [] => (none, u, g)
  | a :: rest =>
    (some a, { undoArr := stackPush 10000 a u.undoArr, redoArr := rest },
      a.redoApply g)

/-- ReplayTracker's state: the two `CircularQueue(10000)` instances, the
flag queue `undoBool` paired index-for-index with `redoQueue`, oldest
first. -/
structure ReplayTracker (γ : Type) where
  undoBool : List Bool
  redoQueue : List (PaintAction γ)

/-- `ReplayTracker.add_action` (replay.py lines 22-35): enqueue the flag
and the action. -/
def ReplayTracker.addAction (a : PaintAction γ) (isUndo : Bool)
    (r : ReplayTracker γ) : ReplayTracker γ :=
  { undoBool := queueAppend 10000 r.undoBool isUndo,
    redoQueue := queueAppend 10000 r.redoQueue a }

/-- `ReplayTracker.play_next_action` (replay.py lines 38-56).  `none`
models `CircularQueue.serve` raising on an empty flag queue, which the
source guards only through the action queue; it is unreachable through the
public interface. -/
def ReplayTracker.playNextAction (r : ReplayTracker γ) (g : γ) :
    Option (Bool × ReplayTracker γ × γ) :=
  match r.redoQueue with
  | [] => some (true, r, g)
  | a :: as =>
    match r.undoBool with
    | [] => none
    | f :: fs =>
      some (false, { undoBool := fs, redoQueue := as },
        if f then a.undoApply g else a.redoApply g)

/-- Relation asserting two layers have distinct names, phrased through the
lexicographic comparison so that it is decidable and symmetric. -/
def nameNe (a b : Layer) : Prop :=
  lexLtB a.name.data b.name.data = true ∨ lexLtB b.name.data a.name.data = true

instance : DecidableRel nameNe := fun a b =>
  inferInstanceAs (Decidable (_ ∨ _))

/-- Strict key order on sorted-list items. -/
def sitemLT (a b : SItem) : Prop := a.key < b.key

instance : DecidableRel sitemLT := fun a b => Nat.decLt a.key b.key

/-- Strict index order on layers. -/
def idxLT (a b : Layer) : Prop := a.index < b.index

instance : DecidableRel idxLT := fun a b => Nat.decLt a.index b.index

/-- Relation asserting two layers have distinct indices. -/
def idxNe (a b : Layer) : Prop := a.index ≠ b.index

instance : IsTotal Layer nameLe := by
  constructor
  intro a b
  unfold nameLe
  have hasym : ∀ (a b : List Char), lexLtB a b = true → lexLtB b a = false := by
    intro a
    induction a with
    | nil => intro b h; cases b <;> simp [lexLtB] at h ⊢
    | cons x xs ih =>
      intro b h
      cases b with
      | nil => simp [lexLtB] at h
      | cons y ys =>
        simp only [lexLtB] at h ⊢
        by_cases h1 : x.toNat < y.toNat
        · have h2 : ¬ y.toNat < x.toNat := by omega
          simp [h1, h2]
        · by_cases h2 : y.toNat < x.toNat
          · simp [h1, h2] at h
          · simp [h1, h2] at h ⊢
            exact ih ys h
  by_cases h : lexLtB b.name.data a.name.data = true
  · exact Or.inr (hasym _ _ h)
  · exact Or.inl (Bool.eq_false_iff.mpr h)

instance : IsTrans Layer nameLe := by
  constructor
  intro a b c hab hbc
  unfold nameLe at hab hbc ⊢
  have htr : ∀ (a b c : List Char),
      lexLtB b a = false → lexLtB c b = false → lexLtB c a = false := by
    intro a
    induction a with
    | nil =>
      intro b c hba hcb
      cases c <;> simp [lexLtB]
    | cons x xs ih =>
      intro b c hba hcb
      cases b with
      | nil => simp [lexLtB] at hba
      | cons y ys =>
        cases c with
        | nil => simp [lexLtB] at hcb
        | cons z zs =>
          simp only [lexLtB] at hba hcb ⊢
          by_cases h1 : y.toNat < x.toNat
          · rw [if_pos h1] at hba
            exact absurd hba (by simp)
          · rw [if_neg h1] at hba
            by_cases h2 : z.toNat < y.toNat
            · rw [if_pos h2] at hcb
              exact absurd hcb (by simp)
            · rw [if_neg h2] at hcb
              have h3 : ¬ z.toNat < x.toNat := by omega
              rw [if_neg h3]
              by_cases h4 : x.toNat < z.toNat
              · rw [if_pos h4]
              · rw [if_neg h4]
                have h5 : ¬ x.toNat < y.toNat := by omega
                have h6 : ¬ y.toNat < z.toNat := by omega
                rw [if_neg h5] at hba
                rw [if_neg h6] at hcb
                exact ih ys zs hba hcb
  exact htr a.name.data b.name.data c.name.data hab hbc

instance : IsAntisymm Layer nameLt := by
  constructor
  intro a b hab hba
  unfold nameLt at hab hba
  have hasym : ∀ (a b : List Char), lexLtB a b = true → lexLtB b a = false := by
    intro a
    induction a with
    | nil => intro b h; cases b <;> simp [lexLtB] at h ⊢
    | cons x xs ih =>
      intro b h
      cases b with
      | nil => simp [lexLtB] at h
      | cons y ys =>
        simp only [lexLtB] at h ⊢
        by_cases h1 : x.toNat < y.toNat
        · have h2 : ¬ y.toNat < x.toNat := by omega
          simp [h1, h2]
        · by_cases h2 : y.toNat < x.toNat
          · simp [h1, h2] at h
          · simp [h1, h2] at h ⊢
            exact ih ys h
  rw [hasym _ _ hab] at hba
  exact absurd hba (by simp)

instance : IsTotal SItem sitemLE := by
  constructor
  intro a b
  unfold sitemLE
  omega

instance : IsTrans SItem sitemLE := by
  constructor
  intro a b c hab hbc
  unfold sitemLE at hab hbc ⊢
  omega

instance : IsAntisymm SItem sitemLT := by
  constructor
  intro a b hab hba
  unfold sitemLT at hab hba
  omega

instance : IsAntisymm Layer idxLT := by
  constructor
  intro a b hab hba
  unfold idxLT at hab hba
  omega

/-- Sample layer: index 0, name delta (identity transform). -/
def lexA : Layer := ⟨0, "delta", fun c _ _ _ => c⟩

/-- Sample layer: index 1, name alpha. -/
def lexB : Layer := ⟨1, "alpha", fun c _ _ _ => (c.1 + 1, c.2.1, c.2.2)⟩

/-- Sample layer: index 2, name carol. -/
def lexC : Layer := ⟨2, "carol", fun c _ _ _ => (2 * c.1, c.2.1, c.2.2)⟩

/-- Sample registry of three layers whose name order differs from their
index order. -/
def reg3 : Registry := [some lexA, some lexB, some lexC]

/-- Store state with all three sample layers applying. -/
def L3 : SeqState := [SItem.mk true 0, SItem.mk true 1, SItem.mk true 2]

/-- The three sample layers sorted ascending by name. -/
def S3 : List Layer := [lexB, lexC, lexA]

/-- Non-idempotent sample layer (adds 40 to each channel, like the
registry's lighten effect). -/
def lighten : Layer :=
  ⟨0, "lighten", fun c _ _ _ => (c.1 + 40, c.2.1 + 40, c.2.2 + 40)⟩

/-- Registry holding lighten plus two empty slots. -/
def regL : Registry := [some lighten, none, none]

/-- State reached from a fresh SequenceLayerStore by
add(lighten); erase(lighten); add(lighten); add(lighten): the third add
takes the "True item absent" branch without removing the stale False item,
and the fourth add turns that stale item into a duplicate True item. -/
def sCorrupt : SeqState :=
  (seqAdd regL lighten (seqAdd regL lighten
    (seqErase lighten (seqAdd regL lighten []).2).2).2).2

/-- Two-layer registry with every slot occupied, so the sequence store's
capacity equals the number of types. -/
def reg2 : Registry := [some lexA, some lexB]

/-- State after add(lexA); add(lexB); erase(lexA) against reg2: the list
is at capacity and holds a not-applying entry for lexA. -/
def L2full : SeqState :=
  (seqErase lexA (seqAdd reg2 lexB (seqAdd reg2 lexA []).2).2).2

/-- State after add(lighten); erase(lighten); add(lighten) against regL:
the third add takes the "True item absent" branch without removing the
stale not-applying item, leaving both entries behind. -/
def sStale : SeqState :=
  (seqAdd regL lighten (seqErase lighten (seqAdd regL lighten []).2).2).2

/-- Demo action 1 over a trace grid: redo appends 1, undo appends 101. -/
def act1 : PaintAction (List Nat) := ⟨fun g => g ++ [101], fun g => g ++ [1]⟩

/-- Demo action 2 over a trace grid: redo appends 2, undo appends 102. -/
def act2 : PaintAction (List Nat) := ⟨fun g => g ++ [102], fun g => g ++ [2]⟩

/-- Demo action 3 over a trace grid: redo appends 3, undo appends 103. -/
def act3 : PaintAction (List Nat) := ⟨fun g => g ++ [103], fun g => g ++ [3]⟩

/-- Replay tracker after recording act1, act2, act3 with undo flags
false, false, true. -/
def replayDemo : ReplayTracker (List Nat) :=
  (((ReplayTracker.mk [] []).addAction act1 false).addAction
    act2 false).addAction act3 true

theorem nameNe_symm : Symmetric nameNe := by
  intro a b h
  exact h.symm

theorem idxNe_symm : Symmetric idxNe := by
  intro a b h
  exact fun e => h e.symm

theorem nameLt_of_nameLe_of_nameNe {a b : Layer} (hle : nameLe a b)
    (hne : nameNe a b) : nameLt a b := by
  rcases hne with h | h
  · exact h
  · exact absurd hle (by simp [nameLe, h])

theorem lookupLayer_index : ∀ (R : Registry) (k : Nat) (l : Layer),
    lookupLayer R k = some l → l.index = k := by
  intro R k
  induction R with
  | nil => intro l h; simp [lookupLayer] at h
  | cons o rest ih =>
    intro l h
    simp only [lookupLayer] at h
    split at h
    · rename_i l2 hr
      injection h with h
      subst h
      exact ih _ hr
    · split at h
      · split at h
        · rename_i hidx
          injection h with h
          subst h
          exact hidx
        · exact Option.noConfusion h
      · exact Option.noConfusion h

theorem lookupLayer_mem : ∀ (R : Registry) (k : Nat) (l : Layer),
    lookupLayer R k = some l → some l ∈ R := by
  intro R k
  induction R with
  | nil => intro l h; simp [lookupLayer] at h
  | cons o rest ih =>
    intro l h
    simp only [lookupLayer] at h
    split at h
    · rename_i l2 hr
      injection h with h
      subst h
      exact List.mem_cons_of_mem _ (ih _ hr)
    · split at h
      · split at h
        · injection h with h
          subst h
          exact List.mem_cons_self _ _
        · exact Option.noConfusion h
      · exact Option.noConfusion h

theorem optNameNe_symm : Symmetric optNameNe := by
  intro o₁ o₂ h
  cases o₁ with
  | none => cases o₂ <;> trivial
  | some a =>
    cases o₂ with
    | none => trivial
    | some b => exact Or.symm h

theorem optIdxNe_symm : Symmetric optIdxNe := by
  intro o₁ o₂ h
  cases o₁ with
  | none => cases o₂ <;> trivial
  | some a =>
    cases o₂ with
    | none => trivial
    | some b => exact fun e => h e.symm

theorem lookup_nameNe {R : Registry} (hnames : R.Pairwise optNameNe)
    {k₁ k₂ : Nat} {l₁ l₂ : Layer} (h₁ : lookupLayer R k₁ = some l₁)
    (h₂ : lookupLayer R k₂ = some l₂) (hk : k₁ ≠ k₂) : nameNe l₁ l₂ := by
  have m₁ := lookupLayer_mem R k₁ l₁ h₁
  have m₂ := lookupLayer_mem R k₂ l₂ h₂
  by_cases he : (some l₁ : Option Layer) = some l₂
  · injection he with he
    subst he
    exact absurd ((lookupLayer_index R k₁ l₁ h₁).symm.trans
      (lookupLayer_index R k₂ l₁ h₂)) hk
  · exact hnames.forall optNameNe_symm m₁ m₂ he

theorem lookup_idxNe {R : Registry} (hidx : R.Pairwise optIdxNe)
    {k₁ k₂ : Nat} {l₁ l₂ : Layer} (h₁ : lookupLayer R k₁ = some l₁)
    (h₂ : lookupLayer R k₂ = some l₂) (hk : k₁ ≠ k₂) : idxNe l₁ l₂ := by
  have m₁ := lookupLayer_mem R k₁ l₁ h₁
  have m₂ := lookupLayer_mem R k₂ l₂ h₂
  by_cases he : (some l₁ : Option Layer) = some l₂
  · injection he with he
    subst he
    exact absurd ((lookupLayer_index R k₁ l₁ h₁).symm.trans
      (lookupLayer_index R k₂ l₁ h₂)) hk
  · exact hidx.forall optIdxNe_symm m₁ m₂ he

theorem applyingLayers_pairwise_nameNe {R : Registry} {L : SeqState}
    (hkeys : (L.map SItem.key).Nodup) (hnames : R.Pairwise optNameNe) :
    (applyingLayers R L).Pairwise nameNe := by
  have hpk : L.Pairwise (fun a b : SItem => a.key ≠ b.key) :=
    List.pairwise_map.mp hkeys
  have hfk : (L.filter (fun it => it.value)).Pairwise
      (fun a b : SItem => a.key ≠ b.key) :=
    hpk.sublist (List.filter_sublist L)
  exact hfk.filterMap (fun (it : SItem) => lookupLayer R it.key)
    (fun a b hab l₁ h₁ l₂ h₂ => lookup_nameNe hnames h₁ h₂ hab)

theorem applyingLayers_pairwise_idxLT {R : Registry} {L : SeqState}
    (hsorted : L.Pairwise sitemLT) (hidx : R.Pairwise optIdxNe) :
    (applyingLayers R L).Pairwise idxLT := by
  have hfk : (L.filter (fun it => it.value)).Pairwise sitemLT :=
    hsorted.sublist (List.filter_sublist L)
  refine hfk.filterMap (fun (it : SItem) => lookupLayer R it.key) ?_
  intro a b hab l₁ h₁ l₂ h₂
  have e₁ := lookupLayer_index R a.key l₁ h₁
  have e₂ := lookupLayer_index R b.key l₂ h₂
  unfold idxLT
  unfold sitemLT at hab
  omega

theorem buildLexi_go_perm (R : Registry) : ∀ (L : SeqState) (acc : List Layer),
    (L.foldl (fun acc it =>
      if it.value then
        match lookupLayer R it.key with
        | some l => List.orderedInsert nameLe l acc
        | none => acc
      else acc) acc).Perm (applyingLayers R L ++ acc) := by
  intro L
  induction L with
  | nil => intro acc; simp [applyingLayers]
  | cons it L ih =>
    intro acc
    rw [List.foldl_cons]
    cases hv : it.value with
    | false =>
      have happ : applyingLayers R (it :: L) = applyingLayers R L := by
        simp [applyingLayers, List.filter_cons, hv]
      rw [happ]
      simpa [hv] using ih acc
    | true =>
      cases hl : lookupLayer R it.key with
      | none =>
        have happ : applyingLayers R (it :: L) = applyingLayers R L := by
          simp [applyingLayers, List.filter_cons, hv, List.filterMap_cons, hl]
        rw [happ]
        simpa [hv, hl] using ih acc
      | some l =>
        have happ : applyingLayers R (it :: L) = l :: applyingLayers R L := by
          simp [applyingLayers, List.filter_cons, hv, List.filterMap_cons, hl]
        rw [happ]
        refine ((ih (List.orderedInsert nameLe l acc)).trans ?_ : _)
        refine (List.Perm.append_left (applyingLayers R L)
          (List.perm_orderedInsert nameLe l acc)).trans ?_
        exact List.perm_middle

theorem buildLexi_perm (R : Registry) (L : SeqState) :
    (buildLexi R L).Perm (applyingLayers R L) := by
  have h := buildLexi_go_perm R L []
  rw [List.append_nil] at h
  exact h

theorem buildLexi_go_sorted (R : Registry) : ∀ (L : SeqState) (acc : List Layer),
    acc.Sorted nameLe →
    (L.foldl (fun acc it =>
      if it.value then
        match lookupLayer R it.key with
        | some l => List.orderedInsert nameLe l acc
        | none => acc
      else acc) acc).Sorted nameLe := by
  intro L
  induction L with
  | nil => intro acc h; exact h
  | cons it L ih =>
    intro acc h
    rw [List.foldl_cons]
    apply ih
    cases hv : it.value with
    | false => simpa [hv] using h
    | true =>
      cases hl : lookupLayer R it.key with
      | none => simpa [hv, hl] using h
      | some l =>
        exact (List.Sorted.orderedInsert l acc h : _)

theorem buildLexi_sorted (R : Registry) (L : SeqState) :
    (buildLexi R L).Sorted nameLe :=
  buildLexi_go_sorted R L [] List.sorted_nil

theorem removeItem_length {a : SItem} : ∀ {L : List SItem}, a ∈ L →
    (removeItem a L).length + 1 = L.length := by
  intro L
  induction L with
  | nil => intro h; cases h
  | cons x xs ih =>
    intro h
    by_cases hx : x = a
    · simp [removeItem, hx]
    · have hmem : a ∈ xs := by
        rcases List.mem_cons.mp h with h1 | h1
        · exact absurd h1.symm hx
        · exact h1
      simp only [removeItem, if_neg hx, List.length_cons]
      rw [← ih hmem]

theorem mem_removeItem_of_ne {a it : SItem} (hne : it ≠ a) :
    ∀ {L : List SItem}, (it ∈ removeItem a L ↔ it ∈ L) := by
  intro L
  induction L with
  | nil => simp [removeItem]
  | cons x xs ih =>
    by_cases hx : x = a
    · subst hx
      simp only [removeItem, if_pos rfl]
      constructor
      · exact fun h => List.mem_cons_of_mem _ h
      · intro h
        rcases List.mem_cons.mp h with h1 | h1
        · exact absurd h1 hne
        · exact h1
    · simp only [removeItem, if_neg hx, List.mem_cons]
      rw [ih]

theorem not_mem_removeItem_self : ∀ {L : SeqState},
    (L.map SItem.key).Nodup → ∀ {a : SItem}, a ∈ L →
    a ∉ removeItem a L := by
  intro L
  induction L with
  | nil => intro _ a ha; cases ha
  | cons x xs ih =>
    intro hkeys a ha
    rw [List.map_cons, List.nodup_cons] at hkeys
    by_cases hx : x = a
    · subst hx
      simp only [removeItem, if_pos rfl]
      intro hmem
      exact hkeys.1 (List.mem_map.mpr ⟨x, hmem, rfl⟩)
    · have hmem : a ∈ xs := by
        rcases List.mem_cons.mp ha with h1 | h1
        · exact absurd h1.symm hx
        · exact h1
      simp only [removeItem, if_neg hx, List.mem_cons]
      intro hcon
      rcases hcon with h1 | h1
      · exact hx h1.symm
      · exact ih hkeys.2 hmem h1

theorem length_le_of_nodup_resolvable {R : Registry} :
    ∀ (ks : List Nat), ks.Nodup →
    (∀ k ∈ ks, (lookupLayer R k).isSome) → ks.length ≤ R.length := by
  intro ks hnd hres
  have hsub : ks ⊆ R.filterMap (fun o => Option.map Layer.index o) := by
    intro k hk
    have h1 := hres k hk
    cases hl : lookupLayer R k with
    | none => rw [hl] at h1; simp at h1
    | some l =>
      have hm := lookupLayer_mem R k l hl
      have hidx := lookupLayer_index R k l hl
      rw [List.mem_filterMap]
      exact ⟨some l, hm, by simp [hidx]⟩
  have h2 := (List.subperm_of_subset hnd hsub).length_le
  have h3 := List.length_filterMap_le (fun o => Option.map Layer.index o) R
  omega

theorem mem_of_full {R : Registry} {L : SeqState}
    (hval : ∀ it ∈ L, it.value = true)
    (hkeys : (L.map SItem.key).Nodup)
    (hres : ∀ it ∈ L, (lookupLayer R it.key).isSome)
    {l : Layer} (hl : lookupLayer R l.index = some l)
    (hfull : R.length ≤ L.length) : SItem.mk true l.index ∈ L := by
  by_contra hmem
  have hnd : (l.index :: L.map SItem.key).Nodup := by
    rw [List.nodup_cons]
    refine ⟨?_, hkeys⟩
    intro hin
    rw [List.mem_map] at hin
    obtain ⟨it, hit, hkey⟩ := hin
    have hv := hval it hit
    have heq : it = SItem.mk true l.index := by
      cases it
      simp_all
    exact hmem (heq ▸ hit)
  have hresall : ∀ k ∈ l.index :: L.map SItem.key, (lookupLayer R k).isSome := by
    intro k hk
    rcases List.mem_cons.mp hk with h | h
    · subst h; simp [hl]
    · rw [List.mem_map] at h
      obtain ⟨it, hit, hkey⟩ := h
      exact hkey ▸ hres it hit
  have hle := length_le_of_nodup_resolvable _ hnd hresall
  simp only [List.length_cons, List.length_map] at hle
  omega

theorem pairwise_nameLt_of_le_of_ne {l : List Layer}
    (hle : l.Sorted nameLe) (hne : l.Pairwise nameNe) : l.Pairwise nameLt :=
  (List.Pairwise.and hle hne).imp
    (fun h => nameLt_of_nameLe_of_nameNe h.1 h.2)

theorem buildLexi_eq {R : Registry} {L : SeqState} {S : List Layer}
    (hkeys : (L.map SItem.key).Nodup) (hnames : R.Pairwise optNameNe)
    (hperm : S.Perm (applyingLayers R L)) (hsorted : S.Pairwise nameLt) :
    buildLexi R L = S := by
  have hp : (buildLexi R L).Perm S := (buildLexi_perm R L).trans hperm.symm
  have hne : (applyingLayers R L).Pairwise nameNe :=
    applyingLayers_pairwise_nameNe hkeys hnames
  have hneb : (buildLexi R L).Pairwise nameNe :=
    ((buildLexi_perm R L).pairwise_iff (fun h => nameNe_symm h)).mpr hne
  have hltb : (buildLexi R L).Pairwise nameLt :=
    pairwise_nameLt_of_le_of_ne (buildLexi_sorted R L) hneb
  exact List.eq_of_perm_of_sorted hp hltb hsorted

theorem delIndex_eq_medianPos (n : Nat) (hn : 0 < n) :
    (if 1 < n then if n % 2 = 0 then n / 2 - 1 else n / 2 else 0) =
      medianPos n := by
  unfold medianPos
  rcases Nat.lt_or_ge 1 n with h | h
  · simp [h]
  · have hn1 : n = 1 := by omega
    subst hn1
    norm_num

/-- C1: special() on a SequenceLayerStore with no applying layers changes
nothing; on a store whose internal list holds at most one item per layer
type (registry names unique), special() erases the applying status of
exactly one layer — the one at 0-indexed position (count/2) - 1 for an
even count of applying layers sorted ascending by name, and at position
count / 2 for an odd count; a single applying layer is itself erased. -/
theorem c1_sequence_special_median :
    (∀ (R : Registry) (L : SeqState), applyingLayers R L = [] →
      seqSpecial R L = L) ∧
    (∀ (R : Registry) (L : SeqState) (S : List Layer) (m : Layer),
      (L.map SItem.key).Nodup →
      R.Pairwise optNameNe →
      S.Perm (applyingLayers R L) →
      S.Pairwise nameLt →
      S.get? (medianPos S.length) = some m →
      seqSpecial R L = (seqErase m L).2 ∧
      isApplying m.index L ∧
      ¬ isApplying m.index (seqSpecial R L) ∧
      (∀ k, k ≠ m.index →
        (isApplying k (seqSpecial R L) ↔ isApplying k L))) := by
  constructor
  · intro R L hA
    by_cases hL : L.isEmpty = true
    · unfold seqSpecial
      rw [if_pos hL]
    · have hp : (buildLexi R L).Perm [] := hA ▸ buildLexi_perm R L
      have hlex : buildLexi R L = [] := hp.eq_nil
      unfold seqSpecial
      rw [if_neg hL]
      simp [hlex]
  · intro R L S m hkeys hnames hperm hsorted hm
    have hSne : S ≠ [] := by
      intro h
      subst h
      simp at hm
    have hn : 0 < S.length := List.length_pos.mpr hSne
    have hAne : applyingLayers R L ≠ [] := by
      intro h
      rw [h] at hperm
      exact hSne hperm.eq_nil
    have hLE : L.isEmpty = false := by
      cases L with
      | nil => exact absurd rfl hAne
      | cons a as => rfl
    have hSE : S.isEmpty = false := by
      cases S with
      | nil => exact absurd rfl hSne
      | cons a as => rfl
    have hlexi : buildLexi R L = S := buildLexi_eq hkeys hnames hperm hsorted
    have hmS : m ∈ S := List.get?_mem hm
    have hmA : m ∈ applyingLayers R L := hperm.subset hmS
    obtain ⟨it, hitf, hlook⟩ := List.mem_filterMap.mp hmA
    have hit := List.mem_filter.mp hitf
    have hidx : m.index = it.key := lookupLayer_index R it.key m hlook
    have hTm : SItem.mk true m.index ∈ L := by
      rw [hidx]
      have hv : it.value = true := by simpa using hit.2
      have hmk : SItem.mk true it.key = it := by
        cases it
        simp_all
      rw [hmk]
      exact hit.1
    have hmain : seqSpecial R L = (seqErase m L).2 := by
      unfold seqSpecial
      rw [hLE]
      simp only [Bool.false_eq_true, if_false, hlexi]
      rw [hSE]
      simp only [Bool.false_eq_true, if_false]
      rw [delIndex_eq_medianPos S.length hn, hm]
    have herase : (seqErase m L).2 =
        List.orderedInsert sitemLE (SItem.mk false m.index)
          (removeItem (SItem.mk true m.index) L) := by
      unfold seqErase
      rw [hLE]
      simp only [Bool.false_eq_true, if_false]
      rw [if_pos hTm]
    have hnot : ¬ isApplying m.index (seqSpecial R L) := by
      rw [hmain, herase]
      intro hmem
      unfold isApplying at hmem
      rcases (List.mem_orderedInsert sitemLE).mp hmem with h | h
      · exact absurd h (by simp)
      · exact not_mem_removeItem_self hkeys hTm h
    have hother : ∀ k, k ≠ m.index →
        (isApplying k (seqSpecial R L) ↔ isApplying k L) := by
      intro k hk
      rw [hmain, herase]
      unfold isApplying
      rw [List.mem_orderedInsert sitemLE]
      have hne1 : SItem.mk true k ≠ SItem.mk true m.index := by
        simp only [ne_eq, SItem.mk.injEq, true_and]
        exact hk
      constructor
      · intro h
        rcases h with h | h
        · exact absurd h (by simp)
        · exact (mem_removeItem_of_ne hne1).mp h
      · intro h
        exact Or.inr ((mem_removeItem_of_ne hne1).mpr h)
    exact ⟨hmain, hTm, hnot, hother⟩

/-- C1 witness: the median-erase theorem instantiated at the three-layer
registry; position 3 / 2 = 1 of the name-sorted applying layers is carol,
which special() erases. -/
theorem c1_witness :
    ((L3.map SItem.key).Nodup ∧ reg3.Pairwise optNameNe ∧
      S3.Perm (applyingLayers reg3 L3) ∧ S3.Pairwise nameLt ∧
      S3.get? (medianPos S3.length) = some lexC) ∧
    (seqSpecial reg3 L3 = (seqErase lexC L3).2 ∧
      isApplying lexC.index L3 ∧
      ¬ isApplying lexC.index (seqSpecial reg3 L3) ∧
      (∀ k, k ≠ lexC.index →
        (isApplying k (seqSpecial reg3 L3) ↔ isApplying k L3))) := by
  have hperm : S3.Perm (applyingLayers reg3 L3) :=
    (List.Perm.cons lexB (List.Perm.swap lexA lexC [])).trans
      (List.Perm.swap lexA lexB [lexC])
  exact ⟨⟨by decide, by decide, hperm, by decide, rfl⟩,
    c1_sequence_special_median.2 reg3 L3 S3 lexC (by decide) (by decide)
      hperm (by decide) rfl⟩

/-- C1 counterexample: the state reached by add; erase; add; add of the
same layer holds a duplicated applying entry; its set of applying layers
is exactly the lighten type, yet special() leaves lighten applying —
against the claim that a store with a single applying layer has it
erased. -/
theorem c1_counterexample :
    sCorrupt = [SItem.mk true 0, SItem.mk true 0] ∧
    isApplying 0 sCorrupt ∧
    (∀ k, isApplying k sCorrupt → k = 0) ∧
    isApplying 0 (seqSpecial regL sCorrupt) := by
  refine ⟨by decide, by decide, ?_, by decide⟩
  intro k hk
  unfold isApplying at hk
  have he : sCorrupt = [SItem.mk true 0, SItem.mk true 0] := by decide
  rw [he] at hk
  rcases List.mem_cons.mp hk with h | h
  · exact congrArg SItem.key h
  · rcases List.mem_cons.mp h with h2 | h2
    · exact congrArg SItem.key h2
    · cases h2

theorem applyMatches_cons_some (l : Layer) (R : Registry) (k : Nat)
    (c : Color) (t x y : Nat) :
    applyMatches (some l :: R) k c t x y =
      applyMatches R k (if l.index = k then l.apply c t x y else c) t x y :=
  rfl

theorem applyMatches_cons_none (R : Registry) (k : Nat) (c : Color)
    (t x y : Nat) :
    applyMatches (none :: R) k c t x y = applyMatches R k c t x y := rfl

theorem lookupLayer_cons (o : Option Layer) (R : Registry) (k : Nat) :
    lookupLayer (o :: R) k =
      (match lookupLayer R k with
       | some l => some l
       | none =>
         match o with
         | some l => if l.index = k then some l else none
         | none => none) := rfl

theorem applyMatches_of_no_match {k : Nat} {c : Color} {t x y : Nat} :
    ∀ {R : Registry}, (∀ l : Layer, some l ∈ R → l.index ≠ k) →
    applyMatches R k c t x y = c := by
  intro R
  induction R generalizing c with
  | nil => intro _; rfl
  | cons o rest ih =>
    intro hno
    cases o with
    | none =>
      rw [applyMatches_cons_none]
      exact ih (fun l hl => hno l (List.mem_cons_of_mem _ hl))
    | some l =>
      have hne : l.index ≠ k := hno l (List.mem_cons_self _ _)
      rw [applyMatches_cons_some, if_neg hne]
      exact ih (fun l2 hl2 => hno l2 (List.mem_cons_of_mem _ hl2))

theorem lookupLayer_of_no_match {k : Nat} :
    ∀ {R : Registry}, (∀ l : Layer, some l ∈ R → l.index ≠ k) →
    lookupLayer R k = none := by
  intro R
  induction R with
  | nil => intro _; rfl
  | cons o rest ih =>
    intro hno
    rw [lookupLayer_cons, ih (fun l hl => hno l (List.mem_cons_of_mem _ hl))]
    cases o with
    | none => rfl
    | some l =>
      have hne : l.index ≠ k := hno l (List.mem_cons_self _ _)
      simp [hne]

theorem applyMatches_eq {k : Nat} {c : Color} {t x y : Nat} :
    ∀ {R : Registry}, R.Pairwise optIdxNe →
    applyMatches R k c t x y =
      (match lookupLayer R k with
       | some l => l.apply c t x y
       | none => c) := by
  intro R
  induction R generalizing c with
  | nil => intro _; rfl
  | cons o rest ih =>
    intro hpw
    have hpc := List.pairwise_cons.mp hpw
    cases o with
    | none =>
      rw [applyMatches_cons_none, lookupLayer_cons, ih hpc.2]
      cases hl : lookupLayer rest k with
      | some l2 => rfl
      | none => rfl
    | some l =>
      by_cases hidx : l.index = k
      · have hno : ∀ l2 : Layer, some l2 ∈ rest → l2.index ≠ k := by
          intro l2 hl2 hk2
          exact hpc.1 (some l2) hl2 (hidx.trans hk2.symm)
        rw [applyMatches_cons_some, if_pos hidx,
          applyMatches_of_no_match hno, lookupLayer_cons,
          lookupLayer_of_no_match hno]
        simp [hidx]
      · rw [applyMatches_cons_some, if_neg hidx, ih hpc.2, lookupLayer_cons]
        cases hl : lookupLayer rest k with
        | some l2 => rfl
        | none => simp [hidx]

theorem seqGetColor_foldl (R : Registry) (L : SeqState) (start : Color)
    (t x y : Nat) :
    seqGetColor R L start t x y =
      L.foldl (fun c it =>
        if it.value then applyMatches R it.key c t x y else c) start := by
  cases L with
  | nil => rfl
  | cons a as => rfl

theorem seqGetColor_eq_applyingLayers {R : Registry} (hpw : R.Pairwise optIdxNe)
    (t x y : Nat) : ∀ (L : SeqState) (start : Color),
    seqGetColor R L start t x y =
      (applyingLayers R L).foldl (fun c l => l.apply c t x y) start := by
  intro L
  induction L with
  | nil => intro start; rfl
  | cons it L ih =>
    intro start
    rw [seqGetColor_foldl, List.foldl_cons]
    by_cases hv : it.value = true
    · rw [if_pos hv, applyMatches_eq hpw]
      cases hl : lookupLayer R it.key with
      | none =>
        have happ : applyingLayers R (it :: L) = applyingLayers R L := by
          simp [applyingLayers, List.filter_cons, hv, List.filterMap_cons, hl]
        rw [happ, ← seqGetColor_foldl]
        exact ih start
      | some l =>
        have happ : applyingLayers R (it :: L) = l :: applyingLayers R L := by
          simp [applyingLayers, List.filter_cons, hv, List.filterMap_cons, hl]
        rw [happ, List.foldl_cons, ← seqGetColor_foldl]
        exact ih (l.apply start t x y)
    · rw [if_neg hv]
      have hvf : it.value = false := by
        revert hv
        cases it.value <;> simp
      have happ : applyingLayers R (it :: L) = applyingLayers R L := by
        simp [applyingLayers, List.filter_cons, hvf]
      rw [happ, ← seqGetColor_foldl]
      exact ih start

theorem sitemLT_of_le_of_ne {a b : SItem} (hle : sitemLE a b)
    (hne : a.key ≠ b.key) : sitemLT a b := by
  unfold sitemLE at hle
  unfold sitemLT
  omega

theorem seqAdd_of_true_mem {R : Registry} {l : Layer} {L : SeqState}
    (hval : ∀ it ∈ L, it.value = true)
    (hmem : SItem.mk true l.index ∈ L) : seqAdd R l L = (false, L) := by
  unfold seqAdd
  by_cases hfull : seqIsFull R L = true
  · rw [if_pos hfull]
  · rw [if_neg hfull, if_neg (by simp [hmem]), if_neg]
    intro hmem2
    exact absurd (hval _ hmem2) (by simp)

theorem seqAdd_of_not_mem {R : Registry} {l : Layer} {L : SeqState}
    (hfull : ¬ seqIsFull R L = true)
    (hmem : SItem.mk true l.index ∉ L) :
    seqAdd R l L =
      (true, List.orderedInsert sitemLE (SItem.mk true l.index) L) := by
  unfold seqAdd
  rw [if_neg hfull, if_pos (by simp [hmem])]

theorem addsFold_spec {R : Registry} :
    ∀ (adds : List Layer) (L : SeqState),
    (∀ l ∈ adds, lookupLayer R l.index = some l) →
    L.Pairwise sitemLT →
    (∀ it ∈ L, it.value = true) →
    (∀ it ∈ L, (lookupLayer R it.key).isSome) →
    ((adds.foldl (fun L l => (seqAdd R l L).2) L).Pairwise sitemLT ∧
     (∀ it ∈ adds.foldl (fun L l => (seqAdd R l L).2) L, it.value = true) ∧
     (∀ it ∈ adds.foldl (fun L l => (seqAdd R l L).2) L,
        (lookupLayer R it.key).isSome) ∧
     (∀ it, it ∈ adds.foldl (fun L l => (seqAdd R l L).2) L ↔
        (it ∈ L ∨ (it.value = true ∧ it.key ∈ adds.map Layer.index)))) := by
  intro adds
  induction adds with
  | nil =>
    intro L _ hsort hval hres
    refine ⟨hsort, hval, hres, ?_⟩
    intro it
    constructor
    · exact fun h => Or.inl h
    · intro h
      rcases h with h | h
      · exact h
      · simp at h
  | cons l adds ih =>
    intro L hadds hsort hval hres
    have hl : lookupLayer R l.index = some l := hadds l (List.mem_cons_self _ _)
    have hadds2 : ∀ l2 ∈ adds, lookupLayer R l2.index = some l2 :=
      fun l2 h2 => hadds l2 (List.mem_cons_of_mem _ h2)
    rw [List.foldl_cons]
    by_cases hmem : SItem.mk true l.index ∈ L
    · have hL1 : (seqAdd R l L).2 = L := by rw [seqAdd_of_true_mem hval hmem]
      rw [hL1]
      obtain ⟨s1, s2, s3, s4⟩ := ih L hadds2 hsort hval hres
      refine ⟨s1, s2, s3, ?_⟩
      intro it
      rw [s4 it]
      constructor
      · intro h
        rcases h with h | ⟨h1, h2⟩
        · exact Or.inl h
        · exact Or.inr ⟨h1, by simp [List.mem_cons]; right; simpa using h2⟩
      · intro h
        rcases h with h | ⟨h1, h2⟩
        · exact Or.inl h
        · rw [List.map_cons, List.mem_cons] at h2
          rcases h2 with h2 | h2
          · left
            have : it = SItem.mk true l.index := by
              cases it
              simp_all
            rw [this]
            exact hmem
          · exact Or.inr ⟨h1, h2⟩
    · have hkeys : (L.map SItem.key).Nodup :=
        List.pairwise_map.mpr (hsort.imp (fun h => Nat.ne_of_lt h))
      have hfull : ¬ seqIsFull R L = true := by
        intro hfull
        have hle : R.length ≤ L.length := by
          unfold seqIsFull at hfull
          exact of_decide_eq_true hfull
        exact hmem (mem_of_full hval hkeys hres hl hle)
      have hL1 : (seqAdd R l L).2 =
          List.orderedInsert sitemLE (SItem.mk true l.index) L := by
        rw [seqAdd_of_not_mem hfull hmem]
      rw [hL1]
      have hperm1 : (List.orderedInsert sitemLE (SItem.mk true l.index) L).Perm
          (SItem.mk true l.index :: L) :=
        List.perm_orderedInsert sitemLE _ L
      have hkeyfresh : ∀ it ∈ L, l.index ≠ it.key := by
        intro it hit hk
        have hv := hval it hit
        have : it = SItem.mk true l.index := by
          cases it
          simp_all
        exact hmem (this ▸ hit)
      have hsort1 : (List.orderedInsert sitemLE (SItem.mk true l.index) L).Pairwise
          sitemLT := by
        have hle1 : (List.orderedInsert sitemLE (SItem.mk true l.index) L).Pairwise
            sitemLE :=
          List.Sorted.orderedInsert _ L (hsort.imp (fun h => Nat.le_of_lt h))
        have hne1 : (List.orderedInsert sitemLE (SItem.mk true l.index) L).Pairwise
            (fun a b : SItem => a.key ≠ b.key) := by
          refine (hperm1.pairwise_iff (fun h => Ne.symm h)).mpr ?_
          rw [List.pairwise_cons]
          exact ⟨fun it hit => hkeyfresh it hit,
            hsort.imp (fun h => Nat.ne_of_lt h)⟩
        exact (hle1.and hne1).imp (fun h => sitemLT_of_le_of_ne h.1 h.2)
      have hval1 : ∀ it ∈ List.orderedInsert sitemLE (SItem.mk true l.index) L,
          it.value = true := by
        intro it hit
        rcases (List.mem_orderedInsert sitemLE).mp hit with h | h
        · rw [h]
        · exact hval it h
      have hres1 : ∀ it ∈ List.orderedInsert sitemLE (SItem.mk true l.index) L,
          (lookupLayer R it.key).isSome := by
        intro it hit
        rcases (List.mem_orderedInsert sitemLE).mp hit with h | h
        · rw [h]
          simp [hl]
        · exact hres it h
      obtain ⟨s1, s2, s3, s4⟩ := ih _ hadds2 hsort1 hval1 hres1
      refine ⟨s1, s2, s3, ?_⟩
      intro it
      rw [s4 it, List.mem_orderedInsert sitemLE]
      constructor
      · intro h
        rcases h with (h | h) | ⟨h1, h2⟩
        · refine Or.inr ⟨by rw [h], ?_⟩
          rw [h, List.map_cons, List.mem_cons]
          exact Or.inl rfl
        · exact Or.inl h
        · exact Or.inr ⟨h1, by
            rw [List.map_cons, List.mem_cons]
            exact Or.inr h2⟩
      · intro h
        rcases h with h | ⟨h1, h2⟩
        · exact Or.inl (Or.inr h)
        · rw [List.map_cons, List.mem_cons] at h2
          rcases h2 with h2 | h2
          · refine Or.inl (Or.inl ?_)
            cases it
            simp_all
          · exact Or.inr ⟨h1, h2⟩

theorem stateOfAdds_spec {R : Registry} {adds : List Layer}
    (hadds : ∀ l ∈ adds, lookupLayer R l.index = some l) :
    ((stateOfAdds R adds).Pairwise sitemLT ∧
     (∀ it ∈ stateOfAdds R adds, it.value = true) ∧
     (∀ it ∈ stateOfAdds R adds, (lookupLayer R it.key).isSome) ∧
     (∀ it, it ∈ stateOfAdds R adds ↔
        (it.value = true ∧ it.key ∈ adds.map Layer.index))) := by
  unfold stateOfAdds
  obtain ⟨s1, s2, s3, s4⟩ := addsFold_spec adds [] hadds (by simp)
    (by simp) (by simp)
  refine ⟨s1, s2, s3, ?_⟩
  intro it
  rw [s4 it]
  simp

theorem stateOfAdds_perm_eq {R : Registry} {adds₁ adds₂ : List Layer}
    (hadds : ∀ l ∈ adds₁, lookupLayer R l.index = some l)
    (hp : adds₁.Perm adds₂) :
    stateOfAdds R adds₁ = stateOfAdds R adds₂ := by
  have hadds₂ : ∀ l ∈ adds₂, lookupLayer R l.index = some l :=
    fun l hl => hadds l (hp.mem_iff.mpr hl)
  obtain ⟨s1, _, _, s4⟩ := stateOfAdds_spec hadds
  obtain ⟨t1, _, _, t4⟩ := stateOfAdds_spec hadds₂
  have nd1 : (stateOfAdds R adds₁).Nodup :=
    s1.imp (fun h => by
      intro he
      rw [he] at h
      exact absurd h (by unfold sitemLT; omega))
  have nd2 : (stateOfAdds R adds₂).Nodup :=
    t1.imp (fun h => by
      intro he
      rw [he] at h
      exact absurd h (by unfold sitemLT; omega))
  have hpm : (stateOfAdds R adds₁).Perm (stateOfAdds R adds₂) := by
    rw [List.perm_ext_iff_of_nodup nd1 nd2]
    intro it
    rw [s4 it, t4 it, (hp.map Layer.index).mem_iff]
  exact List.eq_of_perm_of_sorted hpm s1 t1

/-- C4: on a well-formed SequenceLayerStore (strictly key-sorted internal
list, registry indices unique), get_color applies exactly the applying
layers in ascending registry-index order onto the base colour; and any two
sequences of add calls from a fresh store that are permutations of each
other produce identical stores, hence identical get_color output. -/
theorem c4_sequence_get_color_order :
    (∀ (R : Registry) (L : SeqState) (M : List Layer) (start : Color)
      (t x y : Nat),
      R.Pairwise optIdxNe →
      L.Pairwise sitemLT →
      M.Perm (applyingLayers R L) →
      M.Pairwise idxLT →
      seqGetColor R L start t x y =
        M.foldl (fun c l => l.apply c t x y) start) ∧
    (∀ (R : Registry) (adds₁ adds₂ : List Layer),
      (∀ l ∈ adds₁, lookupLayer R l.index = some l) →
      adds₁.Perm adds₂ →
      stateOfAdds R adds₁ = stateOfAdds R adds₂ ∧
      ∀ (start : Color) (t x y : Nat),
        seqGetColor R (stateOfAdds R adds₁) start t x y =
          seqGetColor R (stateOfAdds R adds₂) start t x y) := by
  constructor
  · intro R L M start t x y hpw hsort hperm hsortM
    have hA : (applyingLayers R L).Pairwise idxLT :=
      applyingLayers_pairwise_idxLT hsort hpw
    have hM : M = applyingLayers R L :=
      List.eq_of_perm_of_sorted hperm hsortM hA
    rw [hM]
    exact seqGetColor_eq_applyingLayers hpw t x y L start
  · intro R adds₁ adds₂ hadds hp
    have he := stateOfAdds_perm_eq hadds hp
    exact ⟨he, fun start t x y => by rw [he]⟩

/-- C4 witness: with the three-layer registry, get_color on the
all-applying store equals the ascending-index composite, and the add
sequences [lexC, lexA] and [lexA, lexC] produce identical stores and
colours. -/
theorem c4_witness :
    (reg3.Pairwise optIdxNe ∧ L3.Pairwise sitemLT ∧
      ([lexA, lexB, lexC].Perm (applyingLayers reg3 L3)) ∧
      [lexA, lexB, lexC].Pairwise idxLT ∧
      (∀ l ∈ [lexC, lexA], lookupLayer reg3 l.index = some l) ∧
      [lexC, lexA].Perm [lexA, lexC]) ∧
    (seqGetColor reg3 L3 (5, 6, 7) 0 0 0 =
      [lexA, lexB, lexC].foldl (fun c l => l.apply c 0 0 0) (5, 6, 7)) ∧
    (stateOfAdds reg3 [lexC, lexA] = stateOfAdds reg3 [lexA, lexC] ∧
      ∀ (start : Color) (t x y : Nat),
        seqGetColor reg3 (stateOfAdds reg3 [lexC, lexA]) start t x y =
          seqGetColor reg3 (stateOfAdds reg3 [lexA, lexC]) start t x y) := by
  have hadds : ∀ l ∈ [lexC, lexA], lookupLayer reg3 l.index = some l := by
    intro l hl
    rcases List.mem_cons.mp hl with h | h
    · rw [h]; rfl
    · rcases List.mem_cons.mp h with h2 | h2
      · rw [h2]; rfl
      · cases h2
  have hswap : [lexC, lexA].Perm [lexA, lexC] := List.Perm.swap lexA lexC []
  refine ⟨⟨by decide, by decide, List.Perm.refl _, by decide, hadds, hswap⟩,
    ?_, ?_⟩
  · exact c4_sequence_get_color_order.1 reg3 L3 [lexA, lexB, lexC]
      (5, 6, 7) 0 0 0 (by decide) (by decide) (List.Perm.refl _) (by decide)
  · exact c4_sequence_get_color_order.2 reg3 [lexC, lexA] [lexA, lexC]
      hadds hswap

/-- C4 counterexample: the reachable duplicated state applies the lighten
layer twice, so get_color differs from the single ascending-index
application of the applying set (which is exactly the lighten type). -/
theorem c4_counterexample :
    isApplying 0 sCorrupt ∧
    (∀ k, isApplying k sCorrupt → k = 0) ∧
    lookupLayer regL 0 = some lighten ∧
    seqGetColor regL sCorrupt (10, 10, 10) 0 0 0 = (90, 90, 90) ∧
    [lighten].foldl (fun c l => l.apply c 0 0 0) (10, 10, 10) =
      (50, 50, 50) ∧
    seqGetColor regL sCorrupt (10, 10, 10) 0 0 0 ≠
      [lighten].foldl (fun c l => l.apply c 0 0 0) (10, 10, 10) := by
  refine ⟨by decide, ?_, rfl, by decide, by decide, by decide⟩
  intro k hk
  unfold isApplying at hk
  have he : sCorrupt = [SItem.mk true 0, SItem.mk true 0] := by decide
  rw [he] at hk
  rcases List.mem_cons.mp hk with h | h
  · exact congrArg SItem.key h
  · rcases List.mem_cons.mp h with h2 | h2
    · exact congrArg SItem.key h2
    · cases h2

/-- C3: two divergences of SequenceLayerStore.add from its stated
contract.  First, on the full store L2full whose lexA entry is tracked as
not applying, add(lexA) needs no new entry yet returns false and changes
nothing, because the fullness check precedes the re-activation branch.
Second, on the stale state sStale the type is already applying, yet a
further add returns true (the "False item present" repair branch fires and
duplicates the applying entry). -/
theorem c3_add_contract_violations :
    (seqIsFull reg2 L2full = true ∧
      SItem.mk false 0 ∈ L2full ∧
      ¬ isApplying 0 L2full ∧
      seqAdd reg2 lexA L2full = (false, L2full)) ∧
    (isApplying 0 sStale ∧
      (seqAdd regL lighten sStale).1 = true) := by
  refine ⟨⟨by decide, by decide, by decide, by decide⟩, by decide, by decide⟩

theorem seqErase_length (l : Layer) (L : SeqState) :
    ((seqErase l L).2).length = L.length := by
  unfold seqErase
  by_cases hE : L.isEmpty = true
  · rw [if_pos hE]
  · rw [if_neg hE]
    by_cases hm : SItem.mk true l.index ∈ L
    · rw [if_pos hm]
      show (List.orderedInsert sitemLE (SItem.mk false l.index)
        (removeItem (SItem.mk true l.index) L)).length = L.length
      rw [List.orderedInsert_length sitemLE]
      exact removeItem_length hm
    · rw [if_neg hm]

theorem seqAdd_length (R : Registry) (l : Layer) (L : SeqState) :
    L.length ≤ ((seqAdd R l L).2).length := by
  unfold seqAdd
  by_cases hfull : seqIsFull R L = true
  · rw [if_pos hfull]
  · rw [if_neg hfull]
    by_cases hm : SItem.mk true l.index ∈ L
    · rw [if_neg (by simp [hm])]
      by_cases hf : SItem.mk false l.index ∈ L
      · rw [if_pos hf]
        show L.length ≤ (List.orderedInsert sitemLE (SItem.mk true l.index)
          (removeItem (SItem.mk false l.index) L)).length
        rw [List.orderedInsert_length sitemLE]
        rw [removeItem_length hf]
      · rw [if_neg hf]
    · rw [if_pos (by simp [hm])]
      show L.length ≤ (List.orderedInsert sitemLE (SItem.mk true l.index)
        L).length
      rw [List.orderedInsert_length sitemLE]
      omega

theorem seqSpecial_length (R : Registry) (L : SeqState) :
    (seqSpecial R L).length = L.length := by
  unfold seqSpecial
  split
  · rfl
  · split
    · rfl
    · split
      · exact seqErase_length _ _
      · rfl

theorem runSeq_length_mono (R : Registry) : ∀ (ops : List SeqOp) (L : SeqState),
    L.length ≤ (runSeq R L ops).length := by
  intro ops
  induction ops with
  | nil => intro L; exact Nat.le_refl _
  | cons op ops ih =>
    intro L
    have hstep : L.length ≤ (seqStep R L op).length := by
      cases op with
      | addO l => exact seqAdd_length R l L
      | eraseO l => exact (seqErase_length l L).symm.le
      | specialO => exact (seqSpecial_length R L).symm.le
    exact hstep.trans (ih (seqStep R L op))

/-- C10: erase never removes a type's entry — a successful erase keeps a
not-applying item for the type and leaves the internal list's length
unchanged; the length never decreases under any sequence of add, erase and
special calls; and the fullness check that makes add return false counts
every entry, including not-applying ones. -/
theorem c10_sequence_list_never_shrinks :
    (∀ (l : Layer) (L : SeqState), ((seqErase l L).2).length = L.length) ∧
    (∀ (l : Layer) (L : SeqState), (seqErase l L).1 = true →
      SItem.mk false l.index ∈ (seqErase l L).2) ∧
    (∀ (R : Registry) (ops : List SeqOp) (L : SeqState),
      L.length ≤ (runSeq R L ops).length) ∧
    (∀ (R : Registry) (l : Layer) (L : SeqState), seqIsFull R L = true →
      seqAdd R l L = (false, L)) := by
  refine ⟨seqErase_length, ?_, runSeq_length_mono, ?_⟩
  · intro l L h
    unfold seqErase at h ⊢
    by_cases hE : L.isEmpty = true
    · rw [if_pos hE] at h
      exact absurd h (by simp)
    · rw [if_neg hE] at h ⊢
      by_cases hm : SItem.mk true l.index ∈ L
      · rw [if_pos hm]
        show SItem.mk false l.index ∈ List.orderedInsert sitemLE
          (SItem.mk false l.index) (removeItem (SItem.mk true l.index) L)
        rw [List.mem_orderedInsert sitemLE]
        exact Or.inl rfl
      · rw [if_neg hm] at h
        exact absurd h (by simp)
  · intro R l L hfull
    unfold seqAdd
    rw [if_pos hfull]

/-- C10 witness: erase of lexA on the all-applying store succeeds and
keeps a not-applying entry with the length unchanged, and add on the full
store L2full is refused unchanged. -/
theorem c10_witness :
    ((seqErase lexA L3).1 = true ∧ seqIsFull reg2 L2full = true) ∧
    (((seqErase lexA L3).2).length = L3.length ∧
      SItem.mk false lexA.index ∈ (seqErase lexA L3).2 ∧
      L3.length ≤ (runSeq reg3 L3 [SeqOp.specialO, SeqOp.eraseO lexB]).length ∧
      seqAdd reg2 lexA L2full = (false, L2full)) :=
  ⟨⟨by decide, by decide⟩,
    ⟨c10_sequence_list_never_shrinks.1 lexA L3,
      c10_sequence_list_never_shrinks.2.1 lexA L3 (by decide),
      c10_sequence_list_never_shrinks.2.2.1 reg3
        [SeqOp.specialO, SeqOp.eraseO lexB] L3,
      c10_sequence_list_never_shrinks.2.2.2 reg2 lexA L2full (by decide)⟩⟩

theorem specialLoad_eq : ∀ (q st : List Layer),
    specialLoad q st = q.reverse ++ st := by
  intro q
  induction q with
  | nil => intro st; simp [specialLoad]
  | cons l ls ih =>
    intro st
    show specialLoad ls (l :: st) = (l :: ls).reverse ++ st
    rw [ih]
    simp

theorem specialUnload_eq : ∀ (st q : List Layer),
    q.length + st.length ≤ 2000 → specialUnload st q = q ++ st := by
  intro st
  induction st with
  | nil => intro q _; simp [specialUnload]
  | cons l ls ih =>
    intro q hlen
    show specialUnload ls (queueAppend 2000 q l) = q ++ l :: ls
    have hq : queueAppend 2000 q l = q ++ [l] := by
      unfold queueAppend
      rw [if_neg (by simp at hlen ⊢; omega)]
    rw [hq, ih (q ++ [l]) (by simp at hlen ⊢; omega)]
    simp

theorem addSpecial_eq : ∀ (m t : List Layer), m.length ≤ 2000 →
    addSpecial ⟨m, t⟩ = ⟨m.reverse, t⟩ := by
  intro m t hlen
  cases m with
  | nil => rfl
  | cons l ls =>
    show AddStore.mk (specialUnload (specialLoad (l :: ls) []) []) t = _
    rw [specialLoad_eq, List.append_nil,
      specialUnload_eq _ _ (by simpa using hlen)]
    simp

/-- C5: AdditiveLayerStore.special reverses the stored order in place, is
a no-op on an empty store, and applied twice restores the original
order. -/
theorem c5_additive_special_involutive :
    ∀ (s : AddStore), s.main.length ≤ 2000 →
      (addSpecial s = { s with main := s.main.reverse } ∧
       addSpecial (addSpecial s) = s ∧
       (s.main = [] → addSpecial s = s)) := by
  intro s hlen
  obtain ⟨m, t⟩ := s
  have h1 := addSpecial_eq m t hlen
  refine ⟨h1, ?_, ?_⟩
  · rw [h1]
    have h2 := addSpecial_eq m.reverse t (by simpa using hlen)
    rw [h2]
    simp
  · intro hm
    have hm2 : m = [] := hm
    subst hm2
    rw [h1]
    rfl

/-- C5 witness: a two-layer store is reversed by one special() and
restored by the second. -/
theorem c5_witness :
    (AddStore.mk [lexA, lexB] []).main.length ≤ 2000 ∧
    (addSpecial ⟨[lexA, lexB], []⟩ = ⟨[lexB, lexA], []⟩ ∧
      addSpecial (addSpecial ⟨[lexA, lexB], []⟩) = ⟨[lexA, lexB], []⟩ ∧
      ((AddStore.mk [lexA, lexB] []).main = [] →
        addSpecial ⟨[lexA, lexB], []⟩ = ⟨[lexA, lexB], []⟩)) :=
  ⟨by simp, c5_additive_special_involutive ⟨[lexA, lexB], []⟩ (by simp)⟩

theorem addGetColorLoop_eq (t x y : Nat) : ∀ (ms acc : List Layer) (c : Color),
    acc.length + ms.length ≤ 2000 →
    addGetColorLoop ms acc c t x y =
      (acc ++ ms, ms.foldl (fun c l => l.apply c t x y) c) := by
  intro ms
  induction ms with
  | nil => intro acc c _; simp [addGetColorLoop]
  | cons l ls ih =>
    intro acc c hlen
    show addGetColorLoop ls (queueAppend 2000 acc l) (l.apply c t x y) t x y = _
    have hq : queueAppend 2000 acc l = acc ++ [l] := by
      unfold queueAppend
      rw [if_neg (by simp at hlen ⊢; omega)]
    rw [hq, ih (acc ++ [l]) _ (by simp at hlen ⊢; omega)]
    simp

theorem addRefillLoop_eq : ∀ (ts q : List Layer),
    q.length + ts.length ≤ 2000 → addRefillLoop ts q = q ++ ts := by
  intro ts
  induction ts with
  | nil => intro q _; simp [addRefillLoop]
  | cons l ls ih =>
    intro q hlen
    show addRefillLoop ls (queueAppend 2000 q l) = q ++ l :: ls
    have hq : queueAppend 2000 q l = q ++ [l] := by
      unfold queueAppend
      rw [if_neg (by simp at hlen ⊢; omega)]
    rw [hq, ih (q ++ [l]) (by simp at hlen ⊢; omega)]
    simp

/-- C6: AdditiveLayerStore.get_color applies every stored layer to the
base colour oldest-to-newest and leaves the store's observable state
exactly as it was (the main queue is drained into the temp queue and
restored). -/
theorem c6_additive_get_color_pure :
    ∀ (s : AddStore) (start : Color) (t x y : Nat),
      s.temp = [] → s.main.length ≤ 2000 →
      addGetColor s start t x y =
        (s.main.foldl (fun c l => l.apply c t x y) start, s) := by
  intro s start t x y htemp hlen
  obtain ⟨m, tp⟩ := s
  dsimp at htemp hlen
  subst htemp
  cases m with
  | nil => rfl
  | cons l ls =>
    show ((addGetColorLoop (l :: ls) [] start t x y).2,
      AddStore.mk (addRefillLoop (addGetColorLoop (l :: ls) [] start t x y).1 [])
        []) = _
    rw [addGetColorLoop_eq t x y (l :: ls) [] start (by simpa using hlen)]
    rw [addRefillLoop_eq _ _ (by simpa using hlen)]
    simp

/-- C6 witness: get_color on a two-layer store returns the composite
colour and the store unchanged. -/
theorem c6_witness :
    ((AddStore.mk [lexB, lexC] []).temp = [] ∧
      (AddStore.mk [lexB, lexC] []).main.length ≤ 2000) ∧
    addGetColor ⟨[lexB, lexC], []⟩ (5, 0, 0) 0 0 0 =
      ([lexB, lexC].foldl (fun c l => l.apply c 0 0 0) (5, 0, 0),
        ⟨[lexB, lexC], []⟩) :=
  ⟨⟨rfl, by simp⟩,
    c6_additive_get_color_pure ⟨[lexB, lexC], []⟩ (5, 0, 0) 0 0 0 rfl (by simp)⟩

theorem setStep_height (s : SetStore) (hs : s.held.length ≤ 1) (op : SetOp) :
    (setStep s op).held.length ≤ 1 := by
  cases op with
  | addO l =>
    show ((setAdd l s).2).held.length ≤ 1
    unfold setAdd
    cases hh : s.held with
    | nil => simp [stackPush]
    | cons top rest =>
      cases rest with
      | nil =>
        show ((if top.index = l.index then (false, s)
          else (true, { s with held := [l] })).2).held.length ≤ 1
        by_cases hi : top.index = l.index
        · rw [if_pos hi]
          exact hs
        · rw [if_neg hi]
          simp
      | cons b bs =>
        rw [hh] at hs
        simp at hs
  | eraseO l =>
    show ((setErase l s).2).held.length ≤ 1
    unfold setErase
    cases hh : s.held with
    | nil => simpa [hh] using hs
    | cons top rest =>
      cases rest with
      | nil => simp
      | cons b bs =>
        rw [hh] at hs
        simp at hs
  | specialO =>
    show (setSpecial s).held.length ≤ 1
    unfold setSpecial
    exact hs

theorem runSet_height_aux : ∀ (ops : List SetOp) (s : SetStore),
    s.held.length ≤ 1 → (ops.foldl setStep s).held.length ≤ 1 := by
  intro ops
  induction ops with
  | nil => intro s hs; exact hs
  | cons op ops ih =>
    intro s hs
    rw [List.foldl_cons]
    exact ih _ (setStep_height s hs op)

/-- C7: a SetLayerStore reached by any sequence of operations holds at
most one layer; add with the currently-held layer returns false, leaves
the state and hence every get_color output unchanged; add with a different
layer replaces the held layer and returns true. -/
theorem c7_set_store_single_layer :
    (∀ ops : List SetOp, (runSet ops).held.length ≤ 1) ∧
    (∀ (s : SetStore) (l top : Layer), s.held = [top] → top.index = l.index →
      (setAdd l s = (false, s) ∧
       ∀ (inv : Color → Nat → Nat → Nat → Color) (start : Color) (t x y : Nat),
         setGetColor inv (setAdd l s).2 start t x y =
           setGetColor inv s start t x y)) ∧
    (∀ (s : SetStore) (l top : Layer), s.held = [top] → top.index ≠ l.index →
      setAdd l s = (true, { s with held := [l] })) := by
  refine ⟨?_, ?_, ?_⟩
  · intro ops
    exact runSet_height_aux ops _ (by simp [])
  · intro s l top hh hi
    have hadd : setAdd l s = (false, s) := by
      unfold setAdd
      rw [hh]
      show (if top.index = l.index then (false, s)
        else (true, { s with held := [l] })) = (false, s)
      rw [if_pos hi]
    exact ⟨hadd, fun inv start t x y => by rw [hadd]⟩
  · intro s l top hh hi
    unfold setAdd
    rw [hh]
    show (if top.index = l.index then (false, s)
      else (true, { s with held := [l] })) = (true, { s with held := [l] })
    rw [if_neg hi]

/-- C7 witness: holding lexA, adding lexA again is refused with identical
colours, and adding lexB replaces the held layer. -/
theorem c7_witness :
    ((SetStore.mk [lexA] false).held = [lexA] ∧ lexA.index = lexA.index ∧
      lexA.index ≠ lexB.index ∧
      (runSet [SetOp.addO lexA, SetOp.addO lexB,
        SetOp.specialO]).held.length ≤ 1) ∧
    ((setAdd lexA ⟨[lexA], false⟩ = (false, ⟨[lexA], false⟩) ∧
      ∀ (inv : Color → Nat → Nat → Nat → Color) (start : Color) (t x y : Nat),
        setGetColor inv (setAdd lexA ⟨[lexA], false⟩).2 start t x y =
          setGetColor inv ⟨[lexA], false⟩ start t x y) ∧
     setAdd lexB ⟨[lexA], false⟩ = (true, ⟨[lexB], false⟩)) :=
  ⟨⟨rfl, rfl, by decide, c7_set_store_single_layer.1 _⟩,
    c7_set_store_single_layer.2.1 ⟨[lexA], false⟩ lexA lexA rfl rfl,
    c7_set_store_single_layer.2.2 ⟨[lexA], false⟩ lexB lexA rfl (by decide)⟩

/-- C8: play_next_action returns true and changes nothing when the queues
are empty; otherwise it dequeues exactly one action with its paired flag
in FIFO order, applies the undo effect when the flag is set and the redo
effect otherwise, and returns false.  After recording three actions with
flags false, false, true, the four successive calls invoke redo, redo,
undo (trace 1, 2, 103) and then report emptiness. -/
theorem c8_replay_fifo :
    (∀ (γ : Type) (r : ReplayTracker γ) (g : γ),
      r.undoBool.length = r.redoQueue.length →
      ((r.redoQueue = [] → r.playNextAction g = some (true, r, g)) ∧
       (∀ (f : Bool) (fs : List Bool) (a : PaintAction γ)
          (as : List (PaintAction γ)),
         r.undoBool = f :: fs → r.redoQueue = a :: as →
         r.playNextAction g = some (false, ⟨fs, as⟩,
           if f then a.undoApply g else a.redoApply g)))) ∧
    (replayDemo.playNextAction [] =
        some (false, ⟨[false, true], [act2, act3]⟩, [1]) ∧
      (ReplayTracker.mk [false, true] [act2, act3]).playNextAction [1] =
        some (false, ⟨[true], [act3]⟩, [1, 2]) ∧
      (ReplayTracker.mk [true] [act3]).playNextAction [1, 2] =
        some (false, ⟨[], []⟩, [1, 2, 103]) ∧
      (ReplayTracker.mk ([] : List Bool)
          ([] : List (PaintAction (List Nat)))).playNextAction [1, 2, 103] =
        some (true, ⟨[], []⟩, [1, 2, 103])) := by
  constructor
  · intro γ r g _
    constructor
    · intro h0
      unfold ReplayTracker.playNextAction
      rw [h0]
    · intro f fs a as hf ha
      unfold ReplayTracker.playNextAction
      rw [ha, hf]
  · exact ⟨rfl, rfl, rfl, rfl⟩

/-- C8 witness: the FIFO theorem applied to the recorded demo tracker. -/
theorem c8_witness :
    (replayDemo.undoBool.length = replayDemo.redoQueue.length ∧
      replayDemo.undoBool = [false, false, true] ∧
      replayDemo.redoQueue = [act1, act2, act3]) ∧
    replayDemo.playNextAction [] = some (false, ⟨[false, true], [act2, act3]⟩,
      if false then act1.undoApply [] else act1.redoApply []) :=
  ⟨⟨by decide, rfl, rfl⟩,
    (c8_replay_fifo.1 (List Nat) replayDemo [] (by decide)).2
      false [false, true] act1 [act2, act3] rfl rfl⟩

/-- C9: UndoTracker.add_action never touches the redo stack, and pushes
onto the undo stack exactly when that stack is below its 10000 capacity,
silently dropping the action otherwise. -/
theorem c9_undo_add_action_frame :
    ∀ (γ : Type) (u : UndoTracker γ) (a : PaintAction γ),
      (u.addAction a).redoArr = u.redoArr ∧
      (u.addAction a).undoArr =
        (if u.undoArr.length < 10000 then a :: u.undoArr else u.undoArr) := by
  intro γ u a
  unfold UndoTracker.addAction
  by_cases h : u.undoArr.length = 10000
  · rw [if_pos h, if_neg (by omega)]
    exact ⟨rfl, rfl⟩
  · rw [if_neg h]
    refine ⟨rfl, ?_⟩
    show stackPush 10000 a u.undoArr = _
    unfold stackPush
    by_cases h2 : 10000 ≤ u.undoArr.length
    · rw [if_pos h2, if_neg (by omega)]
    · rw [if_neg h2, if_pos (by omega)]

/-- C9 witness: add_action on a small tracker pushes to the undo stack
and leaves a non-empty redo stack untouched. -/
theorem c9_witness :
    ((UndoTracker.mk [act1] [act2]).addAction act3).redoArr =
        (UndoTracker.mk [act1] [act2]).redoArr ∧
    ((UndoTracker.mk [act1] [act2]).addAction act3).undoArr =
      (if (UndoTracker.mk [act1] [act2]).undoArr.length < 10000 then
        act3 :: (UndoTracker.mk [act1] [act2]).undoArr
      else (UndoTracker.mk [act1] [act2]).undoArr) :=
  c9_undo_add_action_frame (List Nat) (UndoTracker.mk [act1] [act2]) act3

/-- C2: capacity overflow is absorbed silently everywhere — a full
AdditiveLayerStore refuses add with false and no change; a full
UndoTracker or ReplayTracker drops add_action with no change; and undo
with a full redo stack, like redo with a full undo stack, still pops,
reports the action and applies its effect to the grid, dropping only the
push onto the full opposite stack. -/
theorem c2_capacity_silent_no_failure :
    (∀ (s : AddStore) (l : Layer), s.main.length = 2000 →
      addAdd l s = (false, s)) ∧
    (∀ (γ : Type) (u : UndoTracker γ) (a : PaintAction γ),
      u.undoArr.length = 10000 → u.addAction a = u) ∧
    (∀ (γ : Type) (r : ReplayTracker γ) (a : PaintAction γ) (b : Bool),
      r.undoBool.length = 10000 → r.redoQueue.length = 10000 →
      r.addAction a b = r) ∧
    (∀ (γ : Type) (u : UndoTracker γ) (g : γ) (a : PaintAction γ)
      (rest : List (PaintAction γ)),
      u.undoArr = a :: rest → u.redoArr.length = 10000 →
      u.undo g = (some a, { undoArr := rest, redoArr := u.redoArr },
        a.undoApply g)) ∧
    (∀ (γ : Type) (u : UndoTracker γ) (g : γ) (a : PaintAction γ)
      (rest : List (PaintAction γ)),
      u.redoArr = a :: rest → u.undoArr.length = 10000 →
      u.redo g = (some a, { undoArr := u.undoArr, redoArr := rest },
        a.redoApply g)) := by
  refine ⟨?_, ?_, ?_, ?_, ?_⟩
  · intro s l h
    unfold addAdd
    rw [if_pos h]
  · intro γ u a h
    unfold UndoTracker.addAction
    rw [if_pos h]
  · intro γ r a b h1 h2
    unfold ReplayTracker.addAction
    unfold queueAppend
    rw [if_pos (by omega), if_pos (by omega)]
  · intro γ u g a rest hu h
    unfold UndoTracker.undo
    rw [hu]
    have hsp : stackPush 10000 a u.redoArr = u.redoArr := by
      unfold stackPush
      rw [if_pos (by omega)]
    exact congrArg (fun z => ((some a : Option (PaintAction γ)),
      ({ undoArr := rest, redoArr := z } : UndoTracker γ),
      a.undoApply g)) hsp
  · intro γ u g a rest hr h
    unfold UndoTracker.redo
    rw [hr]
    have hsp : stackPush 10000 a u.undoArr = u.undoArr := by
      unfold stackPush
      rw [if_pos (by omega)]
    exact congrArg (fun z => ((some a : Option (PaintAction γ)),
      ({ undoArr := z, redoArr := rest } : UndoTracker γ),
      a.redoApply g)) hsp

/-- C2 witness: the capacity theorem applied at a full 2000-layer additive
store, full 10000-action trackers, an undo with a full redo stack, and a
redo with a full undo stack. -/
theorem c2_witness :
    ((List.replicate 2000 lexA).length = 2000 ∧
      (List.replicate 10000 act1).length = 10000 ∧
      (List.replicate 10000 false).length = 10000) ∧
    (addAdd lexB ⟨List.replicate 2000 lexA, []⟩ =
        (false, ⟨List.replicate 2000 lexA, []⟩) ∧
      (UndoTracker.mk (List.replicate 10000 act1) []).addAction act2 =
        UndoTracker.mk (List.replicate 10000 act1) [] ∧
      (ReplayTracker.mk (List.replicate 10000 false)
          (List.replicate 10000 act1)).addAction act2 true =
        ReplayTracker.mk (List.replicate 10000 false)
          (List.replicate 10000 act1) ∧
      (UndoTracker.mk [act1] (List.replicate 10000 act2)).undo [] =
        (some act1, { undoArr := [], redoArr := List.replicate 10000 act2 },
          act1.undoApply []) ∧
      (UndoTracker.mk (List.replicate 10000 act2) [act1]).redo [] =
        (some act1, { undoArr := List.replicate 10000 act2, redoArr := [] },
          act1.redoApply [])) :=
  ⟨⟨by rw [List.length_replicate], by rw [List.length_replicate],
      by rw [List.length_replicate]⟩,
    c2_capacity_silent_no_failure.1 _ lexB (by rw [List.length_replicate]),
    c2_capacity_silent_no_failure.2.1 _ _ act2 (by rw [List.length_replicate]),
    c2_capacity_silent_no_failure.2.2.1 _ _ act2 true
      (by rw [List.length_replicate]) (by rw [List.length_replicate]),
    c2_capacity_silent_no_failure.2.2.2.1 _ _ [] act1 [] rfl
      (by rw [List.length_replicate]),
    c2_capacity_silent_no_failure.2.2.2.2 _ _ [] act1 [] rfl
      (by rw [List.length_replicate])⟩

